import Mathlib

/-!
Verification development for the Sapling Pedersen hash
(`src/pedersen_hash.rs` and `src/circuit/pedersen_hash.rs`).

The native hash and the circuit gadget are embedded as Lean functions.
External collaborators (the Jubjub curve library, the lookup gadget, the
`bellman` constraint system) are not part of the sources; where a claim
depends on them they are modelled from the specification, and each such
definition is marked `Modelled from the spec:` in its doc comment.
Curve points are modelled as an arbitrary module over the scalar field,
matching the specification's treatment of curve arithmetic as an opaque
external collaborator.
-/

/-- Modelled from the spec: the order of the curve's scalar field
(the Jubjub prime subgroup order), used for all accumulator arithmetic
in the native hash ("all accumulator arithmetic is modulo the curve's
scalar field order"). The field type itself lives in the external curve
library. -/
def fsOrder : ℕ :=
  6554484396890773809930967563523245729705921265872317281365359162392183254199

/-- The scalar field `E::Fs`: integers modulo the curve's scalar field
order. -/
abbrev Fs : Type := ZMod fsOrder

/-- The domain-separation tag (`Personalization` in `src/pedersen_hash.rs`). -/
inductive Personalization where
  | NoteCommitment : Personalization
  | MerkleTree : ℕ → Personalization
deriving DecidableEq

namespace Personalization

/-- `Personalization::get_bits` from `src/pedersen_hash.rs` lines 11-21.
`NoteCommitment` yields six `true` bits; `MerkleTree(num)` asserts
`num < 63` (an abort, modelled as `none`) and otherwise returns bits
`i = 0..5` of `num` in little-endian order (`(num >> i) & 1 == 1`). -/
def get_bits : Personalization → Option (List Bool)
  | NoteCommitment => some [true, true, true, true, true, true]
  | MerkleTree num =>
      if num < 63 then
        some ((List.range 6).map fun i => ((num >>> i) &&& 1) == 1)
      else none

end Personalization

namespace Native

variable {P : Type} [AddCommGroup P] [Module Fs P]

/-- The inner window loop of the native hash
(`src/pedersen_hash.rs` lines 45-85).  `chunksRemaining` is the loop's
`chunks_remaining` counter (the source enters the loop with the value 63
and tests the counter after decrementing it, so the counter is matched
as `chunksRemaining + 1` here to make the recursion structural; the
`0, _ :: _` case is unreachable from the source's entry value).  Each
iteration grabs one bit `a` and pads `b` and `c` with `false` past the
stream's end, accumulates the window's contribution into `acc`, and
doubles `cur` three more times before the next window. -/
def nativeSegment : ℕ → List Bool → Fs → Fs → Fs × List Bool
  | _, [], acc, _ => (acc, [])
  | 0, bits, acc, _ => (acc, bits)
  | chunksRemaining + 1, a :: rest, acc, cur =>
      let b := rest.headD false
      let c := (rest.drop 1).headD false
      let tmp := cur
      let tmp := if a then tmp + cur else tmp
      let cur := cur + cur
      let tmp := if b then tmp + cur else tmp
      let tmp := if c then -tmp else tmp
      let acc := acc + tmp
      if chunksRemaining = 0 then
        (acc, rest.drop 2)
      else
        let cur := cur + cur
        let cur := cur + cur
        let cur := cur + cur
        nativeSegment chunksRemaining (rest.drop 2) acc cur

/-- A failure of the native hash.  The source surfaces both conditions as
aborts (`assert!` in `get_bits`, `.expect("...")` on the generator
iterator); `outOfFuel` marks exhaustion of the fuel that models the
source's unbounded `loop`. -/
inductive NativeFail where
  | outOfFuel : NativeFail
  | panic : NativeFail
deriving DecidableEq

/-- The outer segment loop of the native hash
(`src/pedersen_hash.rs` lines 37-94).  Per iteration: run the window
loop with `chunks_remaining = 63` (modelled from the spec:
`params.pedersen_hash_chunks_per_generator()` is 63); if no bits were
encountered, stop; otherwise consume the next generator `g` and add
`acc • g` into the running result.  The returned number counts the
generators consumed (the segments emitted). -/
def nativeGo (gens : List P) : ℕ → List Bool → P → ℕ →
    Except NativeFail (P × ℕ)
  | 0, _, _, _ => .error .outOfFuel
  | fuel + 1, bits, result, segs =>
      match bits with
      | [] => .ok (result, segs)
      | _ :: _ =>
          let sr := nativeSegment 63 bits 0 1
          match gens with
          | [] => .error .panic
          | g :: gensRest =>
              nativeGo gensRest fuel sr.2 (result + sr.1 • g) (segs + 1)

/-- The native `pedersen_hash` (`src/pedersen_hash.rs` lines 24-97):
prepend the personalization bits to the message and run the segment
loop, starting from the zero point. -/
def pedersen_hash (personalization : Personalization) (bits : List Bool)
    (gens : List P) : Except NativeFail (P × ℕ) :=
  match personalization.get_bits with
  | none => .error .panic
  | some pb =>
      let allBits := pb ++ bits
      nativeGo gens (allBits.length + 1) allBits 0 0

end Native

/-- Number of segments of a personalized bit stream of length `l`:
`ceil(ceil(l/3)/63) = ceil(l/189)`. -/
def segsOf (l : ℕ) : ℕ := (l + 188) / 189

/-- A circuit-level boolean wire (`Boolean` in the circuit path): either a
compile-time constant or an allocated (constrained) wire carrying a value. -/
inductive CBool where
  | const : Bool → CBool
  | alloc : Bool → CBool
deriving DecidableEq

/-- The boolean value carried by a wire. -/
def CBool.val : CBool → Bool
  | const b => b
  | alloc b => b

/-- Whether the wire is a compile-time constant. -/
def CBool.isConst : CBool → Bool
  | const _ => true
  | alloc _ => false

/-- The scalar contribution of one 3-bit window at the window's base:
`(1 + a + 2*b)`, negated when `c` holds. -/
def encScalar (a b c : Bool) : Fs :=
  (if c then -1 else 1) * (1 + (if a then 1 else 0) + (if b then 2 else 0))

/-- The scalar contribution of window number `j` of a segment:
`encScalar` shifted by the window's base `16 ^ j`. -/
def windowScalar (a b c : Bool) (j : ℕ) : Fs := encScalar a b c * 16 ^ j

namespace Circuit

variable {P : Type} [AddCommGroup P] [Module Fs P]

/-- Modelled from the spec: one entry of the lookup table for window `j`
of a segment with native generator `g` — "each window's contribution is
precomputed into a table of the 8 possible (Montgomery x, y) outputs for
(a, b, c) at that window's position and segment, with the c = 1 branch's
y already negated".  The table construction itself lives in the external
parameter provider. -/
def tableEntry (g : P) (j : ℕ) (a b c : Bool) : P := windowScalar a b c j • g

/-- Modelled from the spec: the tables for `n` consecutive windows
starting at window index `j` of a segment with generator `g`. -/
def tgroupFrom (g : P) : ℕ → ℕ → List (Bool → Bool → Bool → P)
  | _, 0 => []
  | j, n + 1 => tableEntry g j :: tgroupFrom g (j + 1) n

/-- Modelled from the spec: one per-segment group of
`pedersen_circuit_generators()` — 63 window tables (one lookup table per
window position of the segment). -/
def tgroupOf (g : P) : List (Bool → Bool → Bool → P) := tgroupFrom g 0 63

/-- Modelled from the spec: constraints emitted by one invocation of the
lookup-with-conditional-negation gadget — 2 per chunk, one of which is
the lookup-precomputation constraint, skipped when it involves a
constant bit (constant personalization and padding bits "don't need
lookup precomp constraints"; the closed form's `precomputed_booleans`
is 2, plus 1 more if the personalized length is 1 mod 3). -/
def lookupCost (a b _c : CBool) : ℕ :=
  if a.isConst || b.isConst then 1 else 2

/-- The caller-owned constraint-system builder state visible to this
gadget: the number of constraints recorded so far, and the number of
per-segment table groups fetched from the parameter iterator. -/
structure CircSt where
  cs : ℕ
  fetched : ℕ
deriving DecidableEq

/-- A failure of the circuit path.  `panic` models the aborts in the
source (`.expect("enough segments")`, the final `.unwrap()`, and slice
indexing); `typedErr` models a `SynthesisError` propagated through the
`?` operator by the external gadgets; `outOfFuel` marks exhaustion of
the fuel that models the source's unbounded `loop`. -/
inductive CircFail where
  | outOfFuel : CircFail
  | panic : CircFail
  | typedErr : CircFail
deriving DecidableEq

/-- The inner window loop of the circuit hash
(`src/circuit/pedersen_hash.rs` lines 46-78).  Per window: pad `b` and
`c` with the constant-false wire, invoke the lookup gadget with the
current window's table (`segment_windows[0]`; indexing an empty slice is
an abort, the `.error` case), then either seed the segment accumulator
or combine with it by Montgomery addition; stop when the table slice is
exhausted.  The final component threads the builder's constraint count,
with gadget costs modelled from the spec (lookup as `lookupCost`,
Montgomery addition 3). -/
def circuitSegment : List (Bool → Bool → Bool → P) → List CBool → Option P → ℕ →
    Except Unit (Option P) × List CBool × ℕ
  | _, [], segRes, cs => (.ok segRes, [], cs)
  | [], a :: rest, _, cs => (.error (), a :: rest, cs)
  | t :: ts, a :: rest, segRes, cs =>
      let b := rest.headD (CBool.const false)
      let c := (rest.drop 1).headD (CBool.const false)
      let cs := cs + lookupCost a b c
      let tmp := t a.val b.val c.val
      let next :=
        match segRes with
        | none => (some tmp, cs)
        | some segMont => (some (tmp + segMont), cs + 3)
      if ts.isEmpty then (.ok next.1, rest.drop 2, next.2)
      else circuitSegment ts (rest.drop 2) next.1 next.2

/-- The outer segment loop of the circuit hash
(`src/circuit/pedersen_hash.rs` lines 40-108).  Each iteration first
fetches the next per-segment table group (`.expect("enough segments")`,
an abort when the iterator is exhausted), then runs the window loop; a
segment that processed no bits ends the loop and the accumulated result
is unwrapped (`.unwrap()`, an abort when no segment was ever produced).
Otherwise the segment's Montgomery accumulator is converted to Edwards
form (modelled from the spec: the constrained birational conversion
preserves the point's value, at 2 constraints) and added to the running
Edwards accumulator (6 constraints). -/
def circuitGo : ℕ → List (List (Bool → Bool → Bool → P)) → List CBool → Option P →
    CircSt → Except CircFail P × CircSt
  | 0, _, _, _, st => (.error .outOfFuel, st)
  | fuel + 1, tables, bits, hashRes, st =>
      match tables with
      | [] => (.error .panic, st)
      | group :: tablesRest =>
          let st := { st with fetched := st.fetched + 1 }
          match circuitSegment group bits none st.cs with
          | (.error _, _, cs) => (.error .panic, { st with cs := cs })
          | (.ok none, _, cs) =>
              match hashRes with
              | none => (.error .panic, { st with cs := cs })
              | some r => (.ok r, { st with cs := cs })
          | (.ok (some segMont), bitsRest, cs) =>
              let segEdwards := segMont
              let cs := cs + 2
              match hashRes with
              | none =>
                  circuitGo fuel tablesRest bitsRest (some segEdwards)
                    { st with cs := cs }
              | some hashEdwards =>
                  circuitGo fuel tablesRest bitsRest (some (segEdwards + hashEdwards))
                    { st with cs := cs + 6 }

/-- The circuit `pedersen_hash` (`src/circuit/pedersen_hash.rs` lines
23-111): prepend the personalization bits as constant wires
(`get_constant_bools`, an abort for an invalid personalization) and run
the segment loop with an empty accumulator. -/
def pedersen_hash (personalization : Personalization) (bits : List CBool)
    (tables : List (List (Bool → Bool → Bool → P))) (st : CircSt) :
    Except CircFail P × CircSt :=
  match personalization.get_bits with
  | none => (.error .panic, st)
  | some pb =>
      let allBits := pb.map CBool.const ++ bits
      circuitGo (allBits.length + 1) tables allBits none st

end Circuit

/-- `ph_num_constraints` from the source's test module
(`src/circuit/pedersen_hash.rs` lines 123-148): the closed-form
prediction of the number of constraints of a Pedersen hash on
`input_bits` message bits. -/
def ph_num_constraints (input_bits : ℕ) : ℕ :=
  let personalized_bits := 6 + input_bits
  let precomputed_booleans := 2 + (if personalized_bits % 3 == 1 then 1 else 0)
  let chunks := (personalized_bits + 3 - 1) / 3
  let segments := (chunks + 63 - 1) / 63
  let all_but_last_segments := segments - 1
  let last_chunks := chunks - all_but_last_segments * 63
  let lookup_chunk := 2
  let add_chunks := 3
  let convert_segment := 2
  let add_segments := 6
  chunks * lookup_chunk - precomputed_booleans
    + segments * convert_segment
    + all_but_last_segments * ((63 - 1) * add_chunks + add_segments)
    + (last_chunks - 1) * add_chunks

/-- The closed form of spec section 4.3, written from the claim's words:
with `n = 6 + m`, `chunks = ceil(n/3)`, `segments = ceil(chunks/63)`,
`last_chunks = chunks - (segments-1)*63`, `precomputed_const_bits = 2`
plus 1 more if `n mod 3 == 1`, the count is
`chunks*2 - precomputed_const_bits + segments*2 + (segments-1)*(62*3+6)
+ (last_chunks-1)*3`. -/
def closedForm43 (m : ℕ) : ℕ :=
  let n := 6 + m
  let chunks := (n + 2) / 3
  let segments := (chunks + 62) / 63
  let last_chunks := chunks - (segments - 1) * 63
  let precomputed_const_bits := 2 + (if n % 3 = 1 then 1 else 0)
  chunks * 2 - precomputed_const_bits + segments * 2
    + (segments - 1) * (62 * 3 + 6) + (last_chunks - 1) * 3

/-- The number of constraints recorded by the circuit path on a message
of `m` freshly allocated bits, with sufficiently many table groups, in
an initially empty builder.  The point type is instantiated with the
trivial module, since the constraint count does not depend on point
values. -/
def circuitConstraints (m : ℕ) : ℕ :=
  (Circuit.pedersen_hash Personalization.NoteCommitment
      (List.replicate m (CBool.alloc false))
      (List.replicate (segsOf (6 + m) + 1) (Circuit.tgroupOf PUnit.unit))
      ⟨0, 0⟩).2.cs

/-- The claim's own description of one window step of the native scalar
accumulation, written from the claim's words: `tmp = cur; if a then
tmp += cur; cur = cur*2; if b then tmp += cur; if c then tmp = -tmp;
acc += tmp`.  Returns the updated `(acc, cur)`. -/
def specWindowStep (a b c : Bool) (acc cur : Fs) : Fs × Fs :=
  let tmp := cur
  let tmp := if a then tmp + cur else tmp
  let cur := cur * 2
  let tmp := if b then tmp + cur else tmp
  let tmp := if c then -tmp else tmp
  (acc + tmp, cur)

/-- Classifier for the window loop's outcome (abort, no window processed,
or a point produced), used to state that the loop's control flow and
constraint count depend only on the constancy pattern of the wires. -/
def segResKind {P : Type} : Except Unit (Option P) → ℕ
  | .error _ => 0
  | .ok none => 1
  | .ok (some _) => 2

/-! ### Basic lemmas -/

theorem get_bits_length (p : Personalization) (bs : List Bool)
    (h : p.get_bits = some bs) : bs.length = 6 := by
  cases p with
  | NoteCommitment => simp [Personalization.get_bits] at h; simp [← h]
  | MerkleTree num =>
      simp only [Personalization.get_bits] at h
      by_cases hn : num < 63
      · simp [hn] at h; simp [← h]
      · simp [hn] at h

/-! ### Windowing lemmas for the native segment loop -/

theorem nativeSegment_cons (n : ℕ) (a : Bool) (rest : List Bool) (acc cur : Fs) :
    Native.nativeSegment (n + 1) (a :: rest) acc cur =
      (let acc := acc + encScalar a (rest.headD false) ((rest.drop 1).headD false) * cur
       if n = 0 then (acc, rest.drop 2)
       else Native.nativeSegment n (rest.drop 2) acc (16 * cur)) := by
  simp only [Native.nativeSegment]
  cases a <;> cases hb : rest.headD false <;> cases hc : (rest.drop 1).headD false <;>
    by_cases hn : n = 0 <;>
    simp only [hn, if_true, if_false, encScalar, Bool.false_eq_true, ite_true, ite_false,
      reduceIte] <;>
    first
      | (constructor <;> ring_nf)
      | (congr 1 <;> ring)

theorem nativeSegment_drop (n : ℕ) (bits : List Bool) (acc cur : Fs) :
    (Native.nativeSegment n bits acc cur).2 = bits.drop (3 * n) := by
  induction n generalizing bits acc cur with
  | zero => cases bits <;> simp [Native.nativeSegment]
  | succ n ih =>
      cases bits with
      | nil => simp [Native.nativeSegment]
      | cons a rest =>
          rw [nativeSegment_cons]
          by_cases hn : n = 0
          · simp only [hn, if_true, reduceIte]
            rw [show 3 * (0 + 1) = 2 + 1 by ring, List.drop_succ_cons]
          · simp only [hn, if_false, reduceIte, ih]
            rw [List.drop_drop, show 3 * (n + 1) = (2 + 3 * n) + 1 by ring,
              List.drop_succ_cons]

theorem nativeSegment_acc (n : ℕ) (bits : List Bool) (acc cur : Fs) :
    (Native.nativeSegment n bits acc cur).1 = acc + (Native.nativeSegment n bits 0 cur).1 := by
  induction n generalizing bits acc cur with
  | zero => cases bits <;> simp [Native.nativeSegment]
  | succ n ih =>
      cases bits with
      | nil => simp [Native.nativeSegment]
      | cons a rest =>
          rw [nativeSegment_cons, nativeSegment_cons]
          by_cases hn : n = 0
          · simp [hn]
          · simp only [hn, if_false, reduceIte]
            rw [ih, ih _ (0 + _) _]
            abel

/-! ### Circuit/native segment equivalence -/

section Equivalence

variable {P : Type} [AddCommGroup P] [Module Fs P]

theorem tgroupFrom_length (g : P) (j n : ℕ) :
    (Circuit.tgroupFrom g j n).length = n := by
  induction n generalizing j with
  | zero => rfl
  | succ n ih => simp [Circuit.tgroupFrom, ih]

theorem headD_val_map (rest : List CBool) :
    (rest.map CBool.val).headD false = (rest.headD (CBool.const false)).val := by
  cases rest <;> rfl

theorem dropOne_val_map (rest : List CBool) :
    ((rest.map CBool.val).drop 1).headD false =
      ((rest.drop 1).headD (CBool.const false)).val := by
  rw [← List.map_drop]; exact headD_val_map _

theorem tgroupFrom_succ (g : P) (j n : ℕ) :
    Circuit.tgroupFrom g j (n + 1) =
      Circuit.tableEntry g j :: Circuit.tgroupFrom g (j + 1) n := rfl

theorem circuitSegment_nil_bits (ts : List (Bool → Bool → Bool → P))
    (segRes : Option P) (cs : ℕ) :
    Circuit.circuitSegment ts [] segRes cs = (.ok segRes, [], cs) := by
  cases ts <;> rfl

theorem circuitSegment_cons_some (t : Bool → Bool → Bool → P)
    (ts : List (Bool → Bool → Bool → P)) (a : CBool) (rest : List CBool)
    (r : P) (cs : ℕ) :
    Circuit.circuitSegment (t :: ts) (a :: rest) (some r) cs =
      (if ts.isEmpty then
        (.ok (some (t a.val (rest.headD (CBool.const false)).val
            ((rest.drop 1).headD (CBool.const false)).val + r)),
          rest.drop 2,
          cs + Circuit.lookupCost a (rest.headD (CBool.const false))
            ((rest.drop 1).headD (CBool.const false)) + 3)
      else
        Circuit.circuitSegment ts (rest.drop 2)
          (some (t a.val (rest.headD (CBool.const false)).val
            ((rest.drop 1).headD (CBool.const false)).val + r))
          (cs + Circuit.lookupCost a (rest.headD (CBool.const false))
            ((rest.drop 1).headD (CBool.const false)) + 3)) := rfl

theorem circuitSegment_cons_none (t : Bool → Bool → Bool → P)
    (ts : List (Bool → Bool → Bool → P)) (a : CBool) (rest : List CBool)
    (cs : ℕ) :
    Circuit.circuitSegment (t :: ts) (a :: rest) none cs =
      (if ts.isEmpty then
        (.ok (some (t a.val (rest.headD (CBool.const false)).val
            ((rest.drop 1).headD (CBool.const false)).val)),
          rest.drop 2,
          cs + Circuit.lookupCost a (rest.headD (CBool.const false))
            ((rest.drop 1).headD (CBool.const false)))
      else
        Circuit.circuitSegment ts (rest.drop 2)
          (some (t a.val (rest.headD (CBool.const false)).val
            ((rest.drop 1).headD (CBool.const false)).val))
          (cs + Circuit.lookupCost a (rest.headD (CBool.const false))
            ((rest.drop 1).headD (CBool.const false)))) := rfl

theorem circuitSegment_some (n : ℕ) (j : ℕ) (g : P) (cbits : List CBool) (r : P)
    (cs : ℕ) (h : 1 ≤ n ∨ cbits = []) :
    ∃ cs', Circuit.circuitSegment (Circuit.tgroupFrom g j n) cbits (some r) cs =
      (.ok (some ((Native.nativeSegment n (cbits.map CBool.val) 0 (16 ^ j)).1 • g + r)),
        cbits.drop (3 * n), cs') := by
  induction n generalizing j cbits r cs with
  | zero =>
      rcases h with h | h
      · omega
      · subst h
        exact ⟨cs, by simp [Circuit.tgroupFrom, Circuit.circuitSegment,
          Native.nativeSegment]⟩
  | succ n ih =>
      cases cbits with
      | nil =>
          refine ⟨cs, ?_⟩
          rw [circuitSegment_nil_bits]
          simp [Native.nativeSegment]
      | cons a rest =>
          rw [tgroupFrom_succ, circuitSegment_cons_some, List.map_cons,
            nativeSegment_cons]
          simp only [headD_val_map, dropOne_val_map, zero_add]
          cases n with
          | zero =>
              refine ⟨cs + Circuit.lookupCost a (rest.headD (CBool.const false))
                ((rest.drop 1).headD (CBool.const false)) + 3, ?_⟩
              rw [show (Circuit.tgroupFrom g (j + 1) 0).isEmpty = true from rfl,
                if_pos rfl, if_pos rfl]
              rw [show (3 : ℕ) * (0 + 1) = 2 + 1 by ring, List.drop_succ_cons]
              simp [Circuit.tableEntry, windowScalar]
          | succ m =>
              rw [show (Circuit.tgroupFrom g (j + 1) (m + 1)).isEmpty = false from rfl]
              rw [if_neg (by simp), if_neg (by simp)]
              obtain ⟨cs', hrec⟩ := ih (j + 1) (rest.drop 2)
                (Circuit.tableEntry g j a.val (rest.headD (CBool.const false)).val
                  ((rest.drop 1).headD (CBool.const false)).val + r)
                (cs + Circuit.lookupCost a (rest.headD (CBool.const false))
                  ((rest.drop 1).headD (CBool.const false)) + 3)
                (Or.inl (Nat.succ_le_succ (Nat.zero_le m)))
              refine ⟨cs', ?_⟩
              rw [hrec]
              rw [show (Native.nativeSegment (m + 1)
                    (List.drop 2 (List.map CBool.val rest))
                    (encScalar a.val (rest.headD (CBool.const false)).val
                      ((rest.drop 1).headD (CBool.const false)).val * 16 ^ j)
                    (16 * 16 ^ j)).1
                  = encScalar a.val (rest.headD (CBool.const false)).val
                      ((rest.drop 1).headD (CBool.const false)).val * 16 ^ j
                    + (Native.nativeSegment (m + 1)
                        (List.map CBool.val (rest.drop 2)) 0 (16 ^ (j + 1))).1 by
                rw [nativeSegment_acc, ← List.map_drop,
                  show (16 : Fs) * 16 ^ j = 16 ^ (j + 1) by rw [pow_succ]; ring]]
              congr 2
              · simp only [Option.some.injEq]
                rw [add_smul]
                simp only [Circuit.tableEntry, windowScalar]
                abel
              · rw [List.drop_drop,
                  show 3 * (m + 1 + 1) = (3 * (m + 1) + 2) + 1 by ring,
                  List.drop_succ_cons]
                congr 1
                omega

theorem circuitSegment_none (n : ℕ) (j : ℕ) (g : P) (cbits : List CBool)
    (cs : ℕ) (hn : 1 ≤ n) (hb : cbits ≠ []) :
    ∃ cs', Circuit.circuitSegment (Circuit.tgroupFrom g j n) cbits none cs =
      (.ok (some ((Native.nativeSegment n (cbits.map CBool.val) 0 (16 ^ j)).1 • g)),
        cbits.drop (3 * n), cs') := by
  obtain ⟨m, rfl⟩ : ∃ m, n = m + 1 := ⟨n - 1, by omega⟩
  obtain ⟨a, rest, rfl⟩ : ∃ a rest, cbits = a :: rest := by
    cases cbits with
    | nil => exact absurd rfl hb
    | cons a rest => exact ⟨a, rest, rfl⟩
  rw [tgroupFrom_succ, circuitSegment_cons_none, List.map_cons, nativeSegment_cons]
  simp only [headD_val_map, dropOne_val_map, zero_add]
  cases m with
  | zero =>
      refine ⟨cs + Circuit.lookupCost a (rest.headD (CBool.const false))
        ((rest.drop 1).headD (CBool.const false)), ?_⟩
      rw [show (Circuit.tgroupFrom g (j + 1) 0).isEmpty = true from rfl,
        if_pos rfl, if_pos rfl]
      rw [show (3 : ℕ) * (0 + 1) = 2 + 1 by ring, List.drop_succ_cons]
      simp [Circuit.tableEntry, windowScalar]
  | succ m =>
      rw [show (Circuit.tgroupFrom g (j + 1) (m + 1)).isEmpty = false from rfl]
      rw [if_neg (by simp), if_neg (by simp)]
      obtain ⟨cs', hrec⟩ := circuitSegment_some (m + 1) (j + 1) g (rest.drop 2)
        (Circuit.tableEntry g j a.val (rest.headD (CBool.const false)).val
          ((rest.drop 1).headD (CBool.const false)).val)
        (cs + Circuit.lookupCost a (rest.headD (CBool.const false))
          ((rest.drop 1).headD (CBool.const false)))
        (Or.inl (Nat.succ_le_succ (Nat.zero_le m)))
      refine ⟨cs', ?_⟩
      rw [hrec]
      rw [show (Native.nativeSegment (m + 1)
            (List.drop 2 (List.map CBool.val rest))
            (encScalar a.val (rest.headD (CBool.const false)).val
              ((rest.drop 1).headD (CBool.const false)).val * 16 ^ j)
            (16 * 16 ^ j)).1
          = encScalar a.val (rest.headD (CBool.const false)).val
              ((rest.drop 1).headD (CBool.const false)).val * 16 ^ j
            + (Native.nativeSegment (m + 1)
                (List.map CBool.val (rest.drop 2)) 0 (16 ^ (j + 1))).1 by
        rw [nativeSegment_acc, ← List.map_drop,
          show (16 : Fs) * 16 ^ j = 16 ^ (j + 1) by rw [pow_succ]; ring]]
      congr 2
      · simp only [Option.some.injEq]
        rw [add_smul]
        simp only [Circuit.tableEntry, windowScalar]
        abel
      · rw [List.drop_drop,
          show 3 * (m + 1 + 1) = (3 * (m + 1) + 2) + 1 by ring,
          List.drop_succ_cons]
        congr 1
        omega

/-! ### Step lemmas for the outer loops -/

theorem circuitGo_nil_tables (fuel : ℕ) (bits : List CBool) (hashRes : Option P)
    (st : Circuit.CircSt) :
    Circuit.circuitGo (fuel + 1) [] bits hashRes st = (.error .panic, st) := rfl

theorem circuitGo_break_some (fuel : ℕ) (group : List (Bool → Bool → Bool → P))
    (tablesRest : List (List (Bool → Bool → Bool → P))) (bits bitsRest : List CBool)
    (r : P) (st : Circuit.CircSt) (cs : ℕ)
    (hseg : Circuit.circuitSegment group bits none st.cs = (.ok none, bitsRest, cs)) :
    Circuit.circuitGo (fuel + 1) (group :: tablesRest) bits (some r) st =
      (.ok r, ⟨cs, st.fetched + 1⟩) := by
  simp only [Circuit.circuitGo]
  rw [hseg]

theorem circuitGo_break_none (fuel : ℕ) (group : List (Bool → Bool → Bool → P))
    (tablesRest : List (List (Bool → Bool → Bool → P))) (bits bitsRest : List CBool)
    (st : Circuit.CircSt) (cs : ℕ)
    (hseg : Circuit.circuitSegment group bits none st.cs = (.ok none, bitsRest, cs)) :
    Circuit.circuitGo (fuel + 1) (group :: tablesRest) bits none st =
      (.error .panic, ⟨cs, st.fetched + 1⟩) := by
  simp only [Circuit.circuitGo]
  rw [hseg]

theorem circuitGo_cont_some (fuel : ℕ) (group : List (Bool → Bool → Bool → P))
    (tablesRest : List (List (Bool → Bool → Bool → P))) (bits bitsRest : List CBool)
    (segMont r : P) (st : Circuit.CircSt) (cs : ℕ)
    (hseg : Circuit.circuitSegment group bits none st.cs =
      (.ok (some segMont), bitsRest, cs)) :
    Circuit.circuitGo (fuel + 1) (group :: tablesRest) bits (some r) st =
      Circuit.circuitGo fuel tablesRest bitsRest (some (segMont + r))
        ⟨cs + 2 + 6, st.fetched + 1⟩ := by
  simp only [Circuit.circuitGo]
  rw [hseg]

theorem circuitGo_cont_none (fuel : ℕ) (group : List (Bool → Bool → Bool → P))
    (tablesRest : List (List (Bool → Bool → Bool → P))) (bits bitsRest : List CBool)
    (segMont : P) (st : Circuit.CircSt) (cs : ℕ)
    (hseg : Circuit.circuitSegment group bits none st.cs =
      (.ok (some segMont), bitsRest, cs)) :
    Circuit.circuitGo (fuel + 1) (group :: tablesRest) bits none st =
      Circuit.circuitGo fuel tablesRest bitsRest (some segMont)
        ⟨cs + 2, st.fetched + 1⟩ := by
  simp only [Circuit.circuitGo]
  rw [hseg]

theorem segsOf_sub (l : ℕ) : segsOf (l - 189) = segsOf l - 1 := by
  unfold segsOf
  omega

theorem segsOf_pos (l : ℕ) (hl : 1 ≤ l) : 1 ≤ segsOf l := by
  unfold segsOf
  omega

theorem segsOf_le (l : ℕ) : segsOf l ≤ l := by
  unfold segsOf
  omega

theorem goEquiv (fuel : ℕ) (gens : List P) (cbits : List CBool) (r : P)
    (st : Circuit.CircSt) (segs : ℕ)
    (hfuel : segsOf cbits.length + 1 ≤ fuel)
    (hgens : segsOf cbits.length + 1 ≤ gens.length) :
    ∃ pt, Native.nativeGo gens fuel (cbits.map CBool.val) r segs =
        .ok (pt, segs + segsOf cbits.length) ∧
      (Circuit.circuitGo fuel (gens.map Circuit.tgroupOf) cbits (some r) st).1 =
        .ok pt := by
  induction fuel generalizing gens cbits r st segs with
  | zero => omega
  | succ fuel ih =>
      obtain ⟨g, gensRest, rfl⟩ : ∃ g t, gens = g :: t := by
        cases gens with
        | nil => simp at hgens
        | cons g t => exact ⟨g, t, rfl⟩
      cases cbits with
      | nil =>
          refine ⟨r, ?_, ?_⟩
          · simp [Native.nativeGo, segsOf]
          · rw [List.map_cons,
              circuitGo_break_some fuel (Circuit.tgroupOf g) _ [] [] r st st.cs
                (circuitSegment_nil_bits _ _ _)]
      | cons a rest =>
          have hlen : 1 ≤ (a :: rest).length := by simp
          obtain ⟨csSeg, hseg⟩ := circuitSegment_none 63 0 g (a :: rest) st.cs
            (by omega) (by simp)
          rw [pow_zero] at hseg
          have hone : segsOf (a :: rest).length - 1 + 1 = segsOf (a :: rest).length := by
            have := segsOf_pos (a :: rest).length hlen
            omega
          have hlen' : ((a :: rest).drop 189).length = (a :: rest).length - 189 := by
            simp
          obtain ⟨pt, hnat, hcirc⟩ := ih gensRest ((a :: rest).drop 189)
            ((Native.nativeSegment 63 ((a :: rest).map CBool.val) 0 1).1 • g + r)
            ⟨csSeg + 2 + 6, st.fetched + 1⟩ (segs + 1)
            (by rw [hlen', segsOf_sub]; omega)
            (by rw [hlen', segsOf_sub]
                have hgl : (g :: gensRest).length = gensRest.length + 1 := rfl
                have hsp := segsOf_pos (a :: rest).length hlen
                omega)
          refine ⟨pt, ?_, ?_⟩
          · simp only [List.map_cons, Native.nativeGo]
            rw [← List.map_cons CBool.val a rest, nativeSegment_drop, ← List.map_drop,
              add_comm r, hnat, hlen', segsOf_sub]
            congr 2
            omega
          · rw [List.map_cons,
              circuitGo_cont_some fuel (Circuit.tgroupOf g) _ _ _ _ r st csSeg hseg]
            exact hcirc


theorem nativeGo_ok (fuel : ℕ) (gens : List P) (bits : List Bool) (r : P) (segs : ℕ)
    (hfuel : segsOf bits.length + 1 ≤ fuel) (hgens : segsOf bits.length ≤ gens.length) :
    ∃ pt, Native.nativeGo gens fuel bits r segs = .ok (pt, segs + segsOf bits.length) := by
  induction fuel generalizing gens bits r segs with
  | zero => omega
  | succ fuel ih =>
      cases bits with
      | nil => exact ⟨r, by simp [Native.nativeGo, segsOf]⟩
      | cons a rest =>
          have hlen : 1 ≤ (a :: rest).length := by simp
          have hsp := segsOf_pos (a :: rest).length hlen
          obtain ⟨g, gensRest, rfl⟩ : ∃ g t, gens = g :: t := by
            cases gens with
            | nil => exfalso; rw [List.length_nil] at hgens; omega
            | cons g t => exact ⟨g, t, rfl⟩
          have hgl : (g :: gensRest).length = gensRest.length + 1 := rfl
          have hdl : ((a :: rest).drop 189).length = (a :: rest).length - 189 := by simp
          obtain ⟨pt, hrec⟩ := ih gensRest ((a :: rest).drop 189)
            (r + (Native.nativeSegment 63 (a :: rest) 0 1).1 • g) (segs + 1)
            (by rw [hdl, segsOf_sub]; omega) (by rw [hdl, segsOf_sub]; omega)
          refine ⟨pt, ?_⟩
          simp only [Native.nativeGo]
          rw [nativeSegment_drop, show (3 : ℕ) * 63 = 189 from rfl, hrec, hdl, segsOf_sub]
          congr 2
          omega

theorem nativeGo_panic (fuel : ℕ) (gens : List P) (bits : List Bool) (r : P) (segs : ℕ)
    (hfuel : gens.length + 1 ≤ fuel) (hgens : gens.length < segsOf bits.length) :
    Native.nativeGo gens fuel bits r segs = .error .panic := by
  induction fuel generalizing gens bits r segs with
  | zero => omega
  | succ fuel ih =>
      cases bits with
      | nil => simp [segsOf] at hgens
      | cons a rest =>
          cases gens with
          | nil => simp [Native.nativeGo]
          | cons g gensRest =>
              have hgl : (g :: gensRest).length = gensRest.length + 1 := rfl
              have hdl : ((a :: rest).drop 189).length = (a :: rest).length - 189 := by
                simp
              simp only [Native.nativeGo]
              exact ih gensRest _ _ _ (by omega)
                (by rw [nativeSegment_drop, show (3 : ℕ) * 63 = 189 from rfl, hdl,
                      segsOf_sub]
                    omega)

theorem nativeGo_no_fuel_exhaustion (fuel : ℕ) (gens : List P) (bits : List Bool)
    (r : P) (segs : ℕ) (hfuel : bits.length + 1 ≤ fuel) :
    Native.nativeGo gens fuel bits r segs ≠ .error .outOfFuel := by
  induction fuel generalizing gens bits r segs with
  | zero => omega
  | succ fuel ih =>
      cases bits with
      | nil => simp [Native.nativeGo]
      | cons a rest =>
          cases gens with
          | nil => simp [Native.nativeGo]
          | cons g gensRest =>
              simp only [Native.nativeGo]
              refine ih gensRest _ _ _ ?_
              rw [nativeSegment_drop, show (3 : ℕ) * 63 = 189 from rfl]
              have : ((a :: rest).drop 189).length = (a :: rest).length - 189 := by simp
              rw [this]
              have : (a :: rest).length = rest.length + 1 := rfl
              omega


theorem circuitSegment_nil_tables (a : CBool) (rest : List CBool)
    (segRes : Option P) (cs : ℕ) :
    Circuit.circuitSegment ([] : List (Bool → Bool → Bool → P)) (a :: rest) segRes cs =
      (.error (), a :: rest, cs) := rfl

theorem circuitSegment_generic (group : List (Bool → Bool → Bool → P))
    (bits : List CBool) (segRes : Option P) (cs : ℕ) (hg : group ≠ []) :
    ∃ v cs', Circuit.circuitSegment group bits segRes cs =
        (.ok v, bits.drop (3 * group.length), cs') ∧
      (v.isSome ↔ (segRes.isSome ∨ bits ≠ [])) := by
  induction group generalizing bits segRes cs with
  | nil => exact absurd rfl hg
  | cons t ts ih =>
      cases bits with
      | nil =>
          refine ⟨segRes, cs, ?_, by simp⟩
          rw [circuitSegment_nil_bits, List.drop_nil]
      | cons a rest =>
          by_cases hts : ts = []
          · subst hts
            cases segRes with
            | none =>
                refine ⟨some (t a.val (rest.headD (CBool.const false)).val
                  ((rest.drop 1).headD (CBool.const false)).val),
                  cs + Circuit.lookupCost a (rest.headD (CBool.const false))
                    ((rest.drop 1).headD (CBool.const false)), ?_, by simp⟩
                rw [circuitSegment_cons_none, if_pos List.isEmpty_nil]
                rw [show (3 : ℕ) * [t].length = 2 + 1 from rfl, List.drop_succ_cons]
            | some r =>
                refine ⟨some (t a.val (rest.headD (CBool.const false)).val
                  ((rest.drop 1).headD (CBool.const false)).val + r),
                  cs + Circuit.lookupCost a (rest.headD (CBool.const false))
                    ((rest.drop 1).headD (CBool.const false)) + 3, ?_, by simp⟩
                rw [circuitSegment_cons_some, if_pos List.isEmpty_nil]
                rw [show (3 : ℕ) * [t].length = 2 + 1 from rfl, List.drop_succ_cons]
          · have htsE : ts.isEmpty = false := by
              cases ts with
              | nil => exact absurd rfl hts
              | cons x xs => rfl
            have hdrop : (a :: rest).drop (3 * (t :: ts).length) =
                (rest.drop 2).drop (3 * ts.length) := by
              rw [List.drop_drop, show (3 : ℕ) * (t :: ts).length
                = (3 * ts.length + 2) + 1 by simp [List.length_cons]; ring,
                List.drop_succ_cons]
              congr 1
              omega
            cases segRes with
            | none =>
                obtain ⟨v, cs', hrec, hv⟩ := ih (rest.drop 2)
                  (some (t a.val (rest.headD (CBool.const false)).val
                    ((rest.drop 1).headD (CBool.const false)).val))
                  (cs + Circuit.lookupCost a (rest.headD (CBool.const false))
                    ((rest.drop 1).headD (CBool.const false))) hts
                refine ⟨v, cs', ?_, by simp at hv; simp [hv]⟩
                rw [circuitSegment_cons_none, htsE, if_neg (by simp), hrec, hdrop]
            | some r =>
                obtain ⟨v, cs', hrec, hv⟩ := ih (rest.drop 2)
                  (some (t a.val (rest.headD (CBool.const false)).val
                    ((rest.drop 1).headD (CBool.const false)).val + r))
                  (cs + Circuit.lookupCost a (rest.headD (CBool.const false))
                    ((rest.drop 1).headD (CBool.const false)) + 3) hts
                refine ⟨v, cs', ?_, by simp at hv; simp [hv]⟩
                rw [circuitSegment_cons_some, htsE, if_neg (by simp), hrec, hdrop]

theorem circuitGo_err (fuel : ℕ) (group : List (Bool → Bool → Bool → P))
    (tablesRest : List (List (Bool → Bool → Bool → P))) (bits bitsRest : List CBool)
    (hashRes : Option P) (st : Circuit.CircSt) (e : Unit) (cs : ℕ)
    (hseg : Circuit.circuitSegment group bits none st.cs = (.error e, bitsRest, cs)) :
    Circuit.circuitGo (fuel + 1) (group :: tablesRest) bits hashRes st =
      (.error .panic, ⟨cs, st.fetched + 1⟩) := by
  simp only [Circuit.circuitGo]
  rw [hseg]

theorem circuitGo_ok (fuel : ℕ) (tables : List (List (Bool → Bool → Bool → P)))
    (cbits : List CBool) (r : P) (st : Circuit.CircSt)
    (hwf : ∀ gp ∈ tables, gp.length = 63)
    (hfuel : cbits.length + 1 ≤ fuel)
    (htab : segsOf cbits.length + 1 ≤ tables.length) :
    ∃ pt cs', Circuit.circuitGo fuel tables cbits (some r) st =
      (.ok pt, ⟨cs', st.fetched + segsOf cbits.length + 1⟩) := by
  induction fuel generalizing tables cbits r st with
  | zero => omega
  | succ fuel ih =>
      obtain ⟨gp, ts, rfl⟩ : ∃ gp ts, tables = gp :: ts := by
        cases tables with
        | nil => exfalso; rw [List.length_nil] at htab; omega
        | cons gp ts => exact ⟨gp, ts, rfl⟩
      have hgp : gp.length = 63 := hwf gp (by simp)
      cases cbits with
      | nil =>
          refine ⟨r, st.cs, ?_⟩
          rw [circuitGo_break_some fuel gp ts [] [] r st st.cs
            (circuitSegment_nil_bits _ _ _)]
          rw [show segsOf (List.length ([] : List CBool)) = 0 from rfl]
      | cons a rest =>
          obtain ⟨v, cs', hseg, hv⟩ := circuitSegment_generic gp (a :: rest) none st.cs
            (by intro h; rw [h] at hgp; simp at hgp)
          obtain ⟨m, rfl⟩ : ∃ m, v = some m := by
            rcases v with _ | m
            · simp at hv
            · exact ⟨m, rfl⟩
          rw [hgp, show (3 : ℕ) * 63 = 189 from rfl] at hseg
          have hsp : 1 ≤ segsOf (a :: rest).length := segsOf_pos _ (by simp)
          have hll : (a :: rest).length = rest.length + 1 := rfl
          have hdl : ((a :: rest).drop 189).length = (a :: rest).length - 189 := by simp
          obtain ⟨pt, csf, hrec⟩ := ih ts ((a :: rest).drop 189) (m + r)
            ⟨cs' + 2 + 6, st.fetched + 1⟩
            (fun x hx => hwf x (List.mem_cons_of_mem _ hx))
            (by rw [hdl]; omega)
            (by rw [hdl, segsOf_sub]
                rw [show (gp :: ts).length = ts.length + 1 from rfl] at htab
                omega)
          refine ⟨pt, csf, ?_⟩
          rw [circuitGo_cont_some fuel gp ts (a :: rest) _ m r st cs' hseg, hrec]
          congr 2
          dsimp only
          rw [hdl, segsOf_sub]
          omega

theorem circuitGo_panic (fuel : ℕ) (tables : List (List (Bool → Bool → Bool → P)))
    (cbits : List CBool) (r : P) (st : Circuit.CircSt)
    (hwf : ∀ gp ∈ tables, gp.length = 63)
    (hfuel : tables.length + 1 ≤ fuel)
    (htab : tables.length < segsOf cbits.length + 1) :
    ∃ cs', Circuit.circuitGo fuel tables cbits (some r) st =
      (.error .panic, ⟨cs', st.fetched + tables.length⟩) := by
  induction fuel generalizing tables cbits r st with
  | zero => omega
  | succ fuel ih =>
      cases tables with
      | nil => exact ⟨st.cs, by rw [circuitGo_nil_tables]; rfl⟩
      | cons gp ts =>
          have hgp : gp.length = 63 := hwf gp (by simp)
          cases cbits with
          | nil =>
              exfalso
              rw [show segsOf (List.length ([] : List CBool)) = 0 from rfl] at htab
              rw [show (gp :: ts).length = ts.length + 1 from rfl] at htab
              omega
          | cons a rest =>
              obtain ⟨v, cs', hseg, hv⟩ := circuitSegment_generic gp (a :: rest) none
                st.cs (by intro h; rw [h] at hgp; simp at hgp)
              obtain ⟨m, rfl⟩ : ∃ m, v = some m := by
                rcases v with _ | m
                · simp at hv
                · exact ⟨m, rfl⟩
              rw [hgp, show (3 : ℕ) * 63 = 189 from rfl] at hseg
              have hsp : 1 ≤ segsOf (a :: rest).length := segsOf_pos _ (by simp)
              have hdl : ((a :: rest).drop 189).length = (a :: rest).length - 189 := by
                simp
              obtain ⟨csf, hrec⟩ := ih ts ((a :: rest).drop 189) (m + r)
                ⟨cs' + 2 + 6, st.fetched + 1⟩
                (fun x hx => hwf x (List.mem_cons_of_mem _ hx))
                (by rw [show (gp :: ts).length = ts.length + 1 from rfl] at hfuel; omega)
                (by rw [hdl, segsOf_sub]
                    rw [show (gp :: ts).length = ts.length + 1 from rfl] at htab
                    omega)
              refine ⟨csf, ?_⟩
              rw [circuitGo_cont_some fuel gp ts (a :: rest) _ m r st cs' hseg, hrec]
              congr 2
              dsimp only
              rw [show (gp :: ts).length = ts.length + 1 from rfl]
              omega

theorem circuitGo_no_bad_err (fuel : ℕ)
    (tables : List (List (Bool → Bool → Bool → P))) (cbits : List CBool)
    (hashRes : Option P) (st : Circuit.CircSt)
    (hfuel : cbits.length + 1 ≤ fuel) :
    (Circuit.circuitGo fuel tables cbits hashRes st).1 ≠ .error .outOfFuel ∧
      (Circuit.circuitGo fuel tables cbits hashRes st).1 ≠ .error .typedErr := by
  induction fuel generalizing tables cbits hashRes st with
  | zero => omega
  | succ fuel ih =>
      cases tables with
      | nil => rw [circuitGo_nil_tables]; simp
      | cons gp ts =>
          cases cbits with
          | nil =>
              cases hashRes with
              | none =>
                  rw [circuitGo_break_none fuel gp ts [] [] st st.cs
                    (circuitSegment_nil_bits _ _ _)]
                  simp
              | some r =>
                  rw [circuitGo_break_some fuel gp ts [] [] r st st.cs
                    (circuitSegment_nil_bits _ _ _)]
                  simp
          | cons a rest =>
              by_cases hgp : gp = []
              · subst hgp
                rw [circuitGo_err fuel [] ts (a :: rest) (a :: rest) hashRes st () st.cs
                  (circuitSegment_nil_tables _ _ _ _)]
                simp
              · obtain ⟨v, cs', hseg, hv⟩ := circuitSegment_generic gp (a :: rest) none
                  st.cs hgp
                obtain ⟨m, rfl⟩ : ∃ m, v = some m := by
                  rcases v with _ | m
                  · simp at hv
                  · exact ⟨m, rfl⟩
                have hlen : ((a :: rest).drop (3 * gp.length)).length + 1 ≤ fuel := by
                  have h1 : ((a :: rest).drop (3 * gp.length)).length =
                      (a :: rest).length - 3 * gp.length := by simp
                  have h2 : 1 ≤ gp.length := by
                    cases gp with
                    | nil => exact absurd rfl hgp
                    | cons x xs => simp
                  have h3 : (a :: rest).length = rest.length + 1 := rfl
                  omega
                cases hashRes with
                | none =>
                    rw [circuitGo_cont_none fuel gp ts (a :: rest) _ m st cs' hseg]
                    exact ih ts _ _ _ hlen
                | some r =>
                    rw [circuitGo_cont_some fuel gp ts (a :: rest) _ m r st cs' hseg]
                    exact ih ts _ _ _ hlen

theorem circuitSegment_cs_mono (group : List (Bool → Bool → Bool → P))
    (bits : List CBool) (segRes : Option P) (cs : ℕ) :
    cs ≤ (Circuit.circuitSegment group bits segRes cs).2.2 := by
  induction group generalizing bits segRes cs with
  | nil =>
      cases bits with
      | nil => rw [circuitSegment_nil_bits]
      | cons a rest => rw [circuitSegment_nil_tables]
  | cons t ts ih =>
      cases bits with
      | nil => rw [circuitSegment_nil_bits]
      | cons a rest =>
          by_cases hts : ts = []
          · subst hts
            cases segRes with
            | none =>
                rw [circuitSegment_cons_none, if_pos List.isEmpty_nil]
                dsimp only
                omega
            | some r =>
                rw [circuitSegment_cons_some, if_pos List.isEmpty_nil]
                dsimp only
                omega
          · have htsE : ts.isEmpty = false := by
              cases ts with
              | nil => exact absurd rfl hts
              | cons x xs => rfl
            cases segRes with
            | none =>
                rw [circuitSegment_cons_none, htsE, if_neg (by simp)]
                exact le_trans (by omega) (ih _ _ _)
            | some r =>
                rw [circuitSegment_cons_some, htsE, if_neg (by simp)]
                exact le_trans (by omega) (ih _ _ _)

theorem circuitGo_cs_mono (fuel : ℕ) (tables : List (List (Bool → Bool → Bool → P)))
    (cbits : List CBool) (hashRes : Option P) (st : Circuit.CircSt) :
    st.cs ≤ (Circuit.circuitGo fuel tables cbits hashRes st).2.cs := by
  induction fuel generalizing tables cbits hashRes st with
  | zero => simp [Circuit.circuitGo]
  | succ fuel ih =>
      cases tables with
      | nil => rw [circuitGo_nil_tables]
      | cons gp ts =>
          rcases hseg : Circuit.circuitSegment gp cbits none st.cs with ⟨res, bits2, cs2⟩
          have hmono := circuitSegment_cs_mono gp cbits none st.cs
          rw [hseg] at hmono
          dsimp only at hmono
          rcases res with e | v
          · rw [circuitGo_err fuel gp ts cbits bits2 hashRes st e cs2 hseg]
            exact hmono
          · rcases v with _ | m
            · cases hashRes with
              | none => rw [circuitGo_break_none fuel gp ts cbits bits2 st cs2 hseg]; exact hmono
              | some r => rw [circuitGo_break_some fuel gp ts cbits bits2 r st cs2 hseg]; exact hmono
            · cases hashRes with
              | none =>
                  rw [circuitGo_cont_none fuel gp ts cbits bits2 m st cs2 hseg]
                  refine le_trans ?_ (ih ts bits2 (some m) ⟨cs2 + 2, st.fetched + 1⟩)
                  dsimp only
                  omega
              | some r =>
                  rw [circuitGo_cont_some fuel gp ts cbits bits2 m r st cs2 hseg]
                  refine le_trans ?_ (ih ts bits2 (some (m + r)) ⟨cs2 + 2 + 6, st.fetched + 1⟩)
                  dsimp only
                  omega


theorem val_const (b : Bool) : (CBool.const b).val = b := rfl

theorem map_val_personalized (pb : List Bool) (cbits : List CBool) :
    (pb.map CBool.const ++ cbits).map CBool.val = pb ++ cbits.map CBool.val := by
  simp [List.map_append, List.map_map, Function.comp_def, val_const]

theorem goEquivNone (fuel : ℕ) (gens : List P) (cbits : List CBool)
    (st : Circuit.CircSt) (hne : cbits ≠ [])
    (hfuel : segsOf cbits.length + 1 ≤ fuel + 1)
    (hgens : segsOf cbits.length + 1 ≤ gens.length) :
    ∃ pt, Native.nativeGo gens (fuel + 1) (cbits.map CBool.val) 0 0 =
        .ok (pt, segsOf cbits.length) ∧
      (Circuit.circuitGo (fuel + 1) (gens.map Circuit.tgroupOf) cbits none st).1 =
        .ok pt := by
  obtain ⟨a, rest, rfl⟩ : ∃ a rest, cbits = a :: rest := by
    cases cbits with
    | nil => exact absurd rfl hne
    | cons a rest => exact ⟨a, rest, rfl⟩
  have hlen : 1 ≤ (a :: rest).length := by simp
  have hsp := segsOf_pos (a :: rest).length hlen
  obtain ⟨g, gensRest, rfl⟩ : ∃ g t, gens = g :: t := by
    cases gens with
    | nil => exfalso; rw [List.length_nil] at hgens; omega
    | cons g t => exact ⟨g, t, rfl⟩
  have hgl : (g :: gensRest).length = gensRest.length + 1 := rfl
  have hdl : ((a :: rest).drop 189).length = (a :: rest).length - 189 := by simp
  obtain ⟨csSeg, hseg⟩ := circuitSegment_none 63 0 g (a :: rest) st.cs
    (by omega) (by simp)
  rw [pow_zero] at hseg
  obtain ⟨pt, hnat, hcirc⟩ := goEquiv fuel gensRest ((a :: rest).drop 189)
    ((Native.nativeSegment 63 ((a :: rest).map CBool.val) 0 1).1 • g)
    ⟨csSeg + 2, st.fetched + 1⟩ 1
    (by rw [hdl, segsOf_sub]; omega)
    (by rw [hdl, segsOf_sub]; omega)
  refine ⟨pt, ?_, ?_⟩
  · simp only [List.map_cons, Native.nativeGo]
    rw [← List.map_cons CBool.val a rest, nativeSegment_drop,
      show (3 : ℕ) * 63 = 189 from rfl, ← List.map_drop, zero_add, hnat, hdl, segsOf_sub]
    congr 2
    omega
  · rw [List.map_cons,
      circuitGo_cont_none fuel (Circuit.tgroupOf g) _ _ _ _ st csSeg hseg]
    exact hcirc

theorem native_hash_ok (p : Personalization) (pb : List Bool)
    (hp : p.get_bits = some pb) (bits : List Bool) (gens : List P)
    (hgens : segsOf (6 + bits.length) ≤ gens.length) :
    ∃ pt, Native.pedersen_hash p bits gens = .ok (pt, segsOf (6 + bits.length)) := by
  have hlen : (pb ++ bits).length = 6 + bits.length := by
    rw [List.length_append, get_bits_length p pb hp]
  obtain ⟨pt, h⟩ := nativeGo_ok ((pb ++ bits).length + 1) gens (pb ++ bits) 0 0
    (by rw [hlen]; have := segsOf_le (6 + bits.length); omega)
    (by rw [hlen]; exact hgens)
  refine ⟨pt, ?_⟩
  simp only [Native.pedersen_hash, hp]
  rw [h, hlen]
  norm_num

theorem native_hash_panic (p : Personalization) (pb : List Bool)
    (hp : p.get_bits = some pb) (bits : List Bool) (gens : List P)
    (hgens : gens.length < segsOf (6 + bits.length)) :
    Native.pedersen_hash p bits gens = .error .panic := by
  have hlen : (pb ++ bits).length = 6 + bits.length := by
    rw [List.length_append, get_bits_length p pb hp]
  simp only [Native.pedersen_hash, hp]
  refine nativeGo_panic ((pb ++ bits).length + 1) gens (pb ++ bits) 0 0 ?_ ?_
  · have := segsOf_le (6 + bits.length)
    rw [hlen]
    omega
  · rw [hlen]
    exact hgens

theorem native_hash_no_fuel_exhaustion (p : Personalization) (bits : List Bool)
    (gens : List P) :
    Native.pedersen_hash p bits gens ≠ .error .outOfFuel := by
  cases hp : p.get_bits with
  | none => simp [Native.pedersen_hash, hp]
  | some pb =>
      simp only [Native.pedersen_hash, hp]
      exact nativeGo_no_fuel_exhaustion _ gens (pb ++ bits) 0 0 (by omega)

theorem pedersen_hash_equiv (p : Personalization) (pb : List Bool)
    (hp : p.get_bits = some pb) (cbits : List CBool) (gens : List P)
    (st : Circuit.CircSt)
    (hgens : segsOf (6 + cbits.length) + 1 ≤ gens.length) :
    ∃ pt, Native.pedersen_hash p (cbits.map CBool.val) gens =
        .ok (pt, segsOf (6 + cbits.length)) ∧
      (Circuit.pedersen_hash p cbits (gens.map Circuit.tgroupOf) st).1 = .ok pt := by
  have hlen6 := get_bits_length p pb hp
  have hlenC : (pb.map CBool.const ++ cbits).length = 6 + cbits.length := by
    rw [List.length_append, List.length_map, hlen6]
  have hlenN : (pb ++ cbits.map CBool.val).length = 6 + cbits.length := by
    rw [List.length_append, List.length_map, hlen6]
  obtain ⟨pt, hnat, hcirc⟩ := goEquivNone (pb.map CBool.const ++ cbits).length gens
    (pb.map CBool.const ++ cbits) st
    (by intro h; rw [h, List.length_nil] at hlenC; omega)
    (by rw [hlenC]; have := segsOf_le (6 + cbits.length); omega)
    (by rw [hlenC]; exact hgens)
  rw [map_val_personalized] at hnat
  rw [hlenC] at hnat hcirc
  refine ⟨pt, ?_, ?_⟩
  · simp only [Native.pedersen_hash, hp]
    rw [show (pb ++ cbits.map CBool.val).length = 6 + cbits.length from hlenN]
    exact hnat
  · simp only [Circuit.pedersen_hash, hp]
    rw [show (pb.map CBool.const ++ cbits).length = 6 + cbits.length from hlenC]
    exact hcirc

theorem circuit_hash_ok (p : Personalization) (pb : List Bool)
    (hp : p.get_bits = some pb) (cbits : List CBool)
    (tables : List (List (Bool → Bool → Bool → P))) (st : Circuit.CircSt)
    (hwf : ∀ gp ∈ tables, gp.length = 63)
    (htab : segsOf (6 + cbits.length) + 1 ≤ tables.length) :
    ∃ pt cs', Circuit.pedersen_hash p cbits tables st =
      (.ok pt, ⟨cs', st.fetched + segsOf (6 + cbits.length) + 1⟩) := by
  have hlen6 := get_bits_length p pb hp
  have hlenC : (pb.map CBool.const ++ cbits).length = 6 + cbits.length := by
    rw [List.length_append, List.length_map, hlen6]
  obtain ⟨a, rest, hC⟩ : ∃ a rest, pb.map CBool.const ++ cbits = a :: rest := by
    cases h : pb.map CBool.const ++ cbits with
    | nil => exfalso; rw [h, List.length_nil] at hlenC; omega
    | cons a rest => exact ⟨a, rest, rfl⟩
  have hsp : 1 ≤ segsOf (6 + cbits.length) := segsOf_pos _ (by omega)
  obtain ⟨gp, ts, rfl⟩ : ∃ gp ts, tables = gp :: ts := by
    cases tables with
    | nil => exfalso; rw [List.length_nil] at htab; omega
    | cons gp ts => exact ⟨gp, ts, rfl⟩
  have hgp : gp.length = 63 := hwf gp (by simp)
  obtain ⟨v, cs', hseg, hv⟩ := circuitSegment_generic gp (a :: rest) none st.cs
    (by intro h; rw [h] at hgp; simp at hgp)
  obtain ⟨m, rfl⟩ : ∃ m, v = some m := by
    rcases v with _ | m
    · simp at hv
    · exact ⟨m, rfl⟩
  rw [hgp, show (3 : ℕ) * 63 = 189 from rfl] at hseg
  have hlenAR : (a :: rest).length = 6 + cbits.length := by rw [← hC]; exact hlenC
  have hdl : ((a :: rest).drop 189).length = (a :: rest).length - 189 := by simp
  obtain ⟨pt, csf, hrec⟩ := circuitGo_ok (6 + cbits.length) ts ((a :: rest).drop 189)
    m ⟨cs' + 2, st.fetched + 1⟩
    (fun x hx => hwf x (List.mem_cons_of_mem _ hx))
    (by rw [hdl, hlenAR]; omega)
    (by rw [hdl, hlenAR, segsOf_sub]
        rw [show (gp :: ts).length = ts.length + 1 from rfl] at htab
        omega)
  refine ⟨pt, csf, ?_⟩
  simp only [Circuit.pedersen_hash, hp]
  rw [hC, show (a :: rest).length = 6 + cbits.length from hlenAR]
  rw [circuitGo_cont_none (6 + cbits.length) gp ts (a :: rest) _ m st cs' hseg, hrec]
  congr 2
  dsimp only
  rw [hdl, hlenAR, segsOf_sub]
  omega

theorem circuit_hash_panic (p : Personalization) (pb : List Bool)
    (hp : p.get_bits = some pb) (cbits : List CBool)
    (tables : List (List (Bool → Bool → Bool → P))) (st : Circuit.CircSt)
    (hwf : ∀ gp ∈ tables, gp.length = 63)
    (htab : tables.length < segsOf (6 + cbits.length) + 1) :
    ∃ cs', Circuit.pedersen_hash p cbits tables st =
      (.error .panic, ⟨cs', st.fetched + tables.length⟩) := by
  have hlen6 := get_bits_length p pb hp
  have hlenC : (pb.map CBool.const ++ cbits).length = 6 + cbits.length := by
    rw [List.length_append, List.length_map, hlen6]
  obtain ⟨a, rest, hC⟩ : ∃ a rest, pb.map CBool.const ++ cbits = a :: rest := by
    cases h : pb.map CBool.const ++ cbits with
    | nil => exfalso; rw [h, List.length_nil] at hlenC; omega
    | cons a rest => exact ⟨a, rest, rfl⟩
  have hsp : 1 ≤ segsOf (6 + cbits.length) := segsOf_pos _ (by omega)
  have hlenAR : (a :: rest).length = 6 + cbits.length := by rw [← hC]; exact hlenC
  cases tables with
  | nil =>
      refine ⟨st.cs, ?_⟩
      simp only [Circuit.pedersen_hash, hp]
      rw [hC, show (a :: rest).length = 6 + cbits.length from hlenAR]
      rw [circuitGo_nil_tables (6 + cbits.length)]
      rfl
  | cons gp ts =>
      have hgp : gp.length = 63 := hwf gp (by simp)
      obtain ⟨v, cs', hseg, hv⟩ := circuitSegment_generic gp (a :: rest) none st.cs
        (by intro h; rw [h] at hgp; simp at hgp)
      obtain ⟨m, rfl⟩ : ∃ m, v = some m := by
        rcases v with _ | m
        · simp at hv
        · exact ⟨m, rfl⟩
      rw [hgp, show (3 : ℕ) * 63 = 189 from rfl] at hseg
      have hdl : ((a :: rest).drop 189).length = (a :: rest).length - 189 := by simp
      have htl : (gp :: ts).length = ts.length + 1 := rfl
      obtain ⟨csf, hrec⟩ := circuitGo_panic (6 + cbits.length) ts ((a :: rest).drop 189)
        m ⟨cs' + 2, st.fetched + 1⟩
        (fun x hx => hwf x (List.mem_cons_of_mem _ hx))
        (by have := segsOf_le (6 + cbits.length); omega)
        (by rw [hdl, hlenAR, segsOf_sub]; omega)
      refine ⟨csf, ?_⟩
      simp only [Circuit.pedersen_hash, hp]
      rw [hC, show (a :: rest).length = 6 + cbits.length from hlenAR]
      rw [circuitGo_cont_none (6 + cbits.length) gp ts (a :: rest) _ m st cs' hseg, hrec]
      congr 2
      dsimp only
      rw [htl]
      omega

theorem circuit_hash_no_bad_err (p : Personalization) (cbits : List CBool)
    (tables : List (List (Bool → Bool → Bool → P))) (st : Circuit.CircSt) :
    (Circuit.pedersen_hash p cbits tables st).1 ≠ .error .outOfFuel ∧
      (Circuit.pedersen_hash p cbits tables st).1 ≠ .error .typedErr := by
  cases hp : p.get_bits with
  | none => simp [Circuit.pedersen_hash, hp]
  | some pb =>
      simp only [Circuit.pedersen_hash, hp]
      exact circuitGo_no_bad_err _ tables (pb.map CBool.const ++ cbits) none st
        (by omega)

end Equivalence


section Congruence

variable {P : Type} [AddCommGroup P] [Module Fs P]

theorem headD_isConst_congr (l l2 : List CBool)
    (h : l.map CBool.isConst = l2.map CBool.isConst) :
    (l.headD (CBool.const false)).isConst =
      (l2.headD (CBool.const false)).isConst := by
  cases l with
  | nil =>
      cases l2 with
      | nil => rfl
      | cons b bs => simp at h
  | cons a as =>
      cases l2 with
      | nil => simp at h
      | cons b bs =>
          simp only [List.map_cons, List.cons.injEq] at h
          simp [h.1]

theorem drop_isConst_congr (k : ℕ) (l l2 : List CBool)
    (h : l.map CBool.isConst = l2.map CBool.isConst) :
    (l.drop k).map CBool.isConst = (l2.drop k).map CBool.isConst := by
  rw [List.map_drop, List.map_drop, h]

theorem circuitSegment_congr (group : List (Bool → Bool → Bool → P))
    (bits bits2 : List CBool) (segRes segRes2 : Option P) (cs : ℕ)
    (hb : bits.map CBool.isConst = bits2.map CBool.isConst)
    (hr : segRes.isSome = segRes2.isSome) :
    segResKind (Circuit.circuitSegment group bits segRes cs).1 =
      segResKind (Circuit.circuitSegment group bits2 segRes2 cs).1 ∧
    (Circuit.circuitSegment group bits segRes cs).2.1.map CBool.isConst =
      (Circuit.circuitSegment group bits2 segRes2 cs).2.1.map CBool.isConst ∧
    (Circuit.circuitSegment group bits segRes cs).2.2 =
      (Circuit.circuitSegment group bits2 segRes2 cs).2.2 := by
  induction group generalizing bits bits2 segRes segRes2 cs with
  | nil =>
      cases bits with
      | nil =>
          cases bits2 with
          | nil =>
              rw [circuitSegment_nil_bits, circuitSegment_nil_bits]
              refine ⟨?_, rfl, rfl⟩
              cases segRes <;> cases segRes2 <;> simp_all [segResKind]
          | cons b bs => simp at hb
      | cons a as =>
          cases bits2 with
          | nil => simp at hb
          | cons b bs =>
              rw [circuitSegment_nil_tables, circuitSegment_nil_tables]
              exact ⟨rfl, hb, rfl⟩
  | cons t ts ih =>
      cases bits with
      | nil =>
          cases bits2 with
          | nil =>
              rw [circuitSegment_nil_bits, circuitSegment_nil_bits]
              refine ⟨?_, rfl, rfl⟩
              cases segRes <;> cases segRes2 <;> simp_all [segResKind]
          | cons b bs => simp at hb
      | cons a as =>
          cases bits2 with
          | nil => simp at hb
          | cons b bs =>
              simp only [List.map_cons, List.cons.injEq] at hb
              have hlc : Circuit.lookupCost a (as.headD (CBool.const false))
                    ((as.drop 1).headD (CBool.const false)) =
                  Circuit.lookupCost b (bs.headD (CBool.const false))
                    ((bs.drop 1).headD (CBool.const false)) := by
                unfold Circuit.lookupCost
                rw [hb.1, headD_isConst_congr as bs hb.2]
              have hdrops := drop_isConst_congr 2 as bs hb.2
              by_cases hts : ts = []
              · subst hts
                cases segRes with
                | none =>
                    cases segRes2 with
                    | none =>
                        rw [circuitSegment_cons_none, circuitSegment_cons_none,
                          if_pos List.isEmpty_nil, if_pos List.isEmpty_nil]
                        exact ⟨rfl, hdrops, by rw [hlc]⟩
                    | some r2 => simp at hr
                | some r =>
                    cases segRes2 with
                    | none => simp at hr
                    | some r2 =>
                        rw [circuitSegment_cons_some, circuitSegment_cons_some,
                          if_pos List.isEmpty_nil, if_pos List.isEmpty_nil]
                        exact ⟨rfl, hdrops, by rw [hlc]⟩
              · have htsE : ts.isEmpty = false := by
                  cases ts with
                  | nil => exact absurd rfl hts
                  | cons x xs => rfl
                cases segRes with
                | none =>
                    cases segRes2 with
                    | none =>
                        rw [circuitSegment_cons_none, circuitSegment_cons_none,
                          htsE, if_neg (by simp), if_neg (by simp), hlc]
                        exact ih (as.drop 2) (bs.drop 2) _ _ _ hdrops rfl
                    | some r2 => simp at hr
                | some r =>
                    cases segRes2 with
                    | none => simp at hr
                    | some r2 =>
                        rw [circuitSegment_cons_some, circuitSegment_cons_some,
                          htsE, if_neg (by simp), if_neg (by simp), hlc]
                        exact ih (as.drop 2) (bs.drop 2) _ _ _ hdrops rfl

theorem circuitGo_congr (fuel : ℕ)
    (tables : List (List (Bool → Bool → Bool → P)))
    (bits bits2 : List CBool) (hashRes hashRes2 : Option P) (st : Circuit.CircSt)
    (hb : bits.map CBool.isConst = bits2.map CBool.isConst)
    (hr : hashRes.isSome = hashRes2.isSome) :
    (Circuit.circuitGo fuel tables bits hashRes st).2 =
      (Circuit.circuitGo fuel tables bits2 hashRes2 st).2 := by
  induction fuel generalizing tables bits bits2 hashRes hashRes2 st with
  | zero => rfl
  | succ fuel ih =>
      cases tables with
      | nil => rfl
      | cons gp ts =>
          obtain ⟨hk, hb2, hcs⟩ := circuitSegment_congr gp bits bits2 none none
            st.cs hb rfl
          rcases h1 : Circuit.circuitSegment gp bits none st.cs with ⟨res1, r1, c1⟩
          rcases h2 : Circuit.circuitSegment gp bits2 none st.cs with ⟨res2, r2, c2⟩
          rw [h1, h2] at hk hb2 hcs
          dsimp only at hk hb2 hcs
          subst hcs
          rcases res1 with e1 | v1 <;> rcases res2 with e2 | v2
          · rw [circuitGo_err fuel gp ts bits r1 hashRes st e1 c1 h1,
              circuitGo_err fuel gp ts bits2 r2 hashRes2 st e2 c1 h2]
          · exfalso; rcases v2 with _ | m2 <;> simp [segResKind] at hk
          · exfalso; rcases v1 with _ | m1 <;> simp [segResKind] at hk
          · rcases v1 with _ | m1 <;> rcases v2 with _ | m2
            · cases hashRes with
              | none =>
                  cases hashRes2 with
                  | none =>
                      rw [circuitGo_break_none fuel gp ts bits r1 st c1 h1,
                        circuitGo_break_none fuel gp ts bits2 r2 st c1 h2]
                  | some q2 => simp at hr
              | some q =>
                  cases hashRes2 with
                  | none => simp at hr
                  | some q2 =>
                      rw [circuitGo_break_some fuel gp ts bits r1 q st c1 h1,
                        circuitGo_break_some fuel gp ts bits2 r2 q2 st c1 h2]
            · exfalso; simp [segResKind] at hk
            · exfalso; simp [segResKind] at hk
            · cases hashRes with
              | none =>
                  cases hashRes2 with
                  | none =>
                      rw [circuitGo_cont_none fuel gp ts bits r1 m1 st c1 h1,
                        circuitGo_cont_none fuel gp ts bits2 r2 m2 st c1 h2]
                      exact ih ts r1 r2 (some m1) (some m2) _ hb2 rfl
                  | some q2 => simp at hr
              | some q =>
                  cases hashRes2 with
                  | none => simp at hr
                  | some q2 =>
                      rw [circuitGo_cont_some fuel gp ts bits r1 m1 q st c1 h1,
                        circuitGo_cont_some fuel gp ts bits2 r2 m2 q2 st c1 h2]
                      exact ih ts r1 r2 (some (m1 + q)) (some (m2 + q2)) _ hb2 rfl

end Congruence

theorem circuit_count_value_independent (msg : List Bool) :
    (Circuit.pedersen_hash .NoteCommitment (msg.map CBool.alloc)
        (List.replicate (segsOf (6 + msg.length) + 1) (Circuit.tgroupOf PUnit.unit))
        ⟨0, 0⟩).2.cs = circuitConstraints msg.length := by
  have hl1 : ([true, true, true, true, true, true].map CBool.const ++
      msg.map CBool.alloc).length = 6 + msg.length := by simp; omega
  have hl2 : ([true, true, true, true, true, true].map CBool.const ++
      List.replicate msg.length (CBool.alloc false)).length = 6 + msg.length := by
    simp; omega
  unfold circuitConstraints
  rw [show Circuit.pedersen_hash .NoteCommitment (msg.map CBool.alloc)
        (List.replicate (segsOf (6 + msg.length) + 1) (Circuit.tgroupOf PUnit.unit))
        ⟨0, 0⟩
      = Circuit.circuitGo
          (([true, true, true, true, true, true].map CBool.const ++
            msg.map CBool.alloc).length + 1)
          (List.replicate (segsOf (6 + msg.length) + 1) (Circuit.tgroupOf PUnit.unit))
          ([true, true, true, true, true, true].map CBool.const ++
            msg.map CBool.alloc)
          none ⟨0, 0⟩ from rfl]
  rw [show Circuit.pedersen_hash .NoteCommitment
        (List.replicate msg.length (CBool.alloc false))
        (List.replicate (segsOf (6 + msg.length) + 1) (Circuit.tgroupOf PUnit.unit))
        ⟨0, 0⟩
      = Circuit.circuitGo
          (([true, true, true, true, true, true].map CBool.const ++
            List.replicate msg.length (CBool.alloc false)).length + 1)
          (List.replicate (segsOf (6 + msg.length) + 1) (Circuit.tgroupOf PUnit.unit))
          ([true, true, true, true, true, true].map CBool.const ++
            List.replicate msg.length (CBool.alloc false))
          none ⟨0, 0⟩ from rfl]
  rw [hl1, hl2]
  refine congrArg Circuit.CircSt.cs (circuitGo_congr (6 + msg.length + 1) _ _ _
    none none ⟨0, 0⟩ ?_ rfl)
  simp only [List.map_append, List.map_map, List.map_replicate]
  congr 1
  clear hl1 hl2
  induction msg with
  | nil => rfl
  | cons x xs ihm => simpa [List.replicate_succ, CBool.isConst] using ihm

/-! ### Claim theorems -/

/-- **C1.** For every personalization and every finite sequence of input bits,
with sufficient generators/tables in the parameters (the spec-modelled tables
being built from the native generators), the output point of the circuit-path
pedersen hash is exactly the output point of the native-path pedersen hash on
the same personalization and bits (the circuit wires carrying those bits). -/
theorem C1_native_circuit_equivalence {P : Type} [AddCommGroup P] [Module Fs P]
    (p : Personalization) (pb : List Bool) (hp : p.get_bits = some pb)
    (cbits : List CBool) (gens : List P) (st : Circuit.CircSt)
    (hgens : segsOf (6 + cbits.length) + 1 ≤ gens.length) :
    ∃ pt k, Native.pedersen_hash p (cbits.map CBool.val) gens = .ok (pt, k) ∧
      (Circuit.pedersen_hash p cbits (gens.map Circuit.tgroupOf) st).1 = .ok pt := by
  obtain ⟨pt, hn, hc⟩ := pedersen_hash_equiv p pb hp cbits gens st hgens
  exact ⟨pt, _, hn, hc⟩

set_option maxRecDepth 10000 in
theorem C1_witness :
    ∃ pt k, Native.pedersen_hash .NoteCommitment
        (([] : List CBool).map CBool.val) ([1, 1] : List Fs) = .ok (pt, k) ∧
      (Circuit.pedersen_hash .NoteCommitment ([] : List CBool)
        (([1, 1] : List Fs).map Circuit.tgroupOf) ⟨0, 0⟩).1 = .ok pt :=
  C1_native_circuit_equivalence .NoteCommitment
    [true, true, true, true, true, true] rfl [] ([1, 1] : List Fs) ⟨0, 0⟩
    (by decide)

set_option maxRecDepth 10000 in
/-- **C2.** The constraint count of the circuit-path pedersen hash depends
only on the message length (any message of allocated wires records the same
count as the canonical one); for every message bit-length in
{0, 183, 184, 185, 255, 510} that count (excluding the caller's per-bit
boolean-validity constraints) equals the closed form of spec section 4.3;
the closed form coincides with the source's own `ph_num_constraints` at every
length; and 510 message bits yield exactly 867 core constraints. -/
theorem C2_constraint_count :
    (∀ msg : List Bool,
      (Circuit.pedersen_hash .NoteCommitment (msg.map CBool.alloc)
        (List.replicate (segsOf (6 + msg.length) + 1) (Circuit.tgroupOf PUnit.unit))
        ⟨0, 0⟩).2.cs = circuitConstraints msg.length) ∧
    circuitConstraints 0 = closedForm43 0 ∧
    circuitConstraints 183 = closedForm43 183 ∧
    circuitConstraints 184 = closedForm43 184 ∧
    circuitConstraints 185 = closedForm43 185 ∧
    circuitConstraints 255 = closedForm43 255 ∧
    circuitConstraints 510 = closedForm43 510 ∧
    (∀ m, closedForm43 m = ph_num_constraints m) ∧
    circuitConstraints 510 = 867 := by
  refine ⟨circuit_count_value_independent, by decide, by decide, by decide,
    by decide, by decide, by decide, ?_, by decide⟩
  intro m
  unfold closedForm43 ph_num_constraints
  simp only [beq_iff_eq]
  by_cases h : (6 + m) % 3 = 1 <;> simp only [h, if_pos, if_neg, if_true, if_false,
    reduceIte, not_false_eq_true] <;> omega

/-- **C3.** In the native hash, each window updates the scalar accumulator
exactly by the claim's sequence `tmp = cur; if a then tmp += cur; cur = cur*2;
if b then tmp += cur; if c then tmp = -tmp; acc += tmp`, and, unless the
window is the segment's final window, the window base `cur` is advanced to
16 times its value at the window's start (the in-window doubling followed by
three further field doublings) before the next window — all arithmetic in
`Fs`, the integers modulo the curve's scalar field order. -/
theorem C3_window_step (n : ℕ) (a : Bool) (rest : List Bool) (acc cur : Fs) :
    Native.nativeSegment (n + 1) (a :: rest) acc cur =
      (let s := specWindowStep a (rest.headD false) ((rest.drop 1).headD false)
        acc cur
       if n = 0 then (s.1, rest.drop 2)
       else Native.nativeSegment n (rest.drop 2) s.1 (cur * 16)) := by
  rw [nativeSegment_cons]
  have hs : specWindowStep a (rest.headD false) ((rest.drop 1).headD false) acc cur
      = (acc + encScalar a (rest.headD false) ((rest.drop 1).headD false) * cur,
        cur * 2) := by
    cases a <;> cases hb : rest.headD false <;> cases hc : (rest.drop 1).headD false <;>
      simp [specWindowStep, encScalar] <;> ring
  rw [hs]
  by_cases hn : n = 0
  · simp [hn]
  · simp only [hn, if_neg, if_false, reduceIte]
    congr 1
    ring

set_option maxRecDepth 10000 in
/-- **C4 counterexample.** A message of 187 bits (193 bits with the
personalization, hence 65 chunks and 2 segments) with exactly one generator:
the claim says messages of 187 down to 183 bits consume exactly 1 generator,
but the native hash runs out of generators and aborts — 2 are required. -/
theorem C4_counterexample :
    Native.pedersen_hash .NoteCommitment (List.replicate 187 false)
      ([1] : List Fs) = .error .panic := by
  rfl

/-- **C4 (amended).** A message of exactly 189 bits consumes exactly 2
generators, as does one of 188 bits; but the one-generator range ends at 183,
not 187: every message of 184 to 189 bits consumes exactly 2 generators
(failing when only 1 is supplied), and every message of 183 or fewer bits
consumes exactly 1. -/
theorem C4_amended {P : Type} [AddCommGroup P] [Module Fs P]
    (p : Personalization) (pb : List Bool) (hp : p.get_bits = some pb)
    (bits : List Bool) (gens : List P) :
    (184 ≤ bits.length → bits.length ≤ 189 → 2 ≤ gens.length →
      ∃ pt, Native.pedersen_hash p bits gens = .ok (pt, 2)) ∧
    (bits.length ≤ 183 → 1 ≤ gens.length →
      ∃ pt, Native.pedersen_hash p bits gens = .ok (pt, 1)) ∧
    (184 ≤ bits.length → gens.length < 2 →
      Native.pedersen_hash p bits gens = .error .panic) := by
  refine ⟨?_, ?_, ?_⟩
  · intro h1 h2 hg
    have hseg : segsOf (6 + bits.length) = 2 := by unfold segsOf; omega
    obtain ⟨pt, h⟩ := native_hash_ok p pb hp bits gens (by rw [hseg]; exact hg)
    exact ⟨pt, by rw [h, hseg]⟩
  · intro h1 hg
    have hseg : segsOf (6 + bits.length) = 1 := by unfold segsOf; omega
    obtain ⟨pt, h⟩ := native_hash_ok p pb hp bits gens (by rw [hseg]; exact hg)
    exact ⟨pt, by rw [h, hseg]⟩
  · intro h1 hg
    have hseg : 2 ≤ segsOf (6 + bits.length) := by unfold segsOf; omega
    exact native_hash_panic p pb hp bits gens (by omega)

set_option maxRecDepth 10000 in
theorem C4_witness :
    ∃ pt, Native.pedersen_hash .NoteCommitment
      (List.replicate 185 false) ([1, 1] : List Fs) = .ok (pt, 2) :=
  (C4_amended .NoteCommitment [true, true, true, true, true, true] rfl
    (List.replicate 185 false) [1, 1]).1 (by decide) (by decide) (by decide)

/-- **C5.** `get_bits` returns exactly 6 booleans: `NoteCommitment` yields six
true bits; `MerkleTree n` fails (the `assert!`) exactly when `63 ≤ n` — so
`MerkleTree 62` succeeds and `MerkleTree 63` fails — and otherwise returns
bits `i = 0..5` of `n` in little-endian order (`(n >>> i) &&& 1`), purely. -/
theorem C5_get_bits :
    (Personalization.get_bits .NoteCommitment =
      some [true, true, true, true, true, true]) ∧
    (∀ n, Personalization.get_bits (.MerkleTree n) = none ↔ 63 ≤ n) ∧
    (∀ n, n < 63 → Personalization.get_bits (.MerkleTree n) =
      some ((List.range 6).map fun i => ((n >>> i) &&& 1) == 1)) ∧
    (∀ p bs, Personalization.get_bits p = some bs → bs.length = 6) := by
  refine ⟨rfl, ?_, ?_, get_bits_length⟩
  · intro n
    by_cases h : n < 63 <;> simp [Personalization.get_bits, h] <;> omega
  · intro n h
    simp [Personalization.get_bits, h]

theorem C5_witness :
    Personalization.get_bits (.MerkleTree 5) =
      some ((List.range 6).map fun i => (((5 : ℕ) >>> i) &&& 1) == 1) :=
  C5_get_bits.2.2.1 5 (by decide)

set_option maxRecDepth 10000 in
/-- **C6 counterexample.** The empty message needs exactly 1 segment, and
exactly 1 well-formed table group is supplied — as many groups as segments
required, so by the claim the call should succeed and any failure would be a
typed result.  In fact the call fails, and the failure is the abort channel
(the `.expect("enough segments")` panic), distinct from the typed
`SynthesisError` channel. -/
theorem C6_counterexample :
    (Circuit.pedersen_hash .NoteCommitment ([] : List CBool)
        [Circuit.tgroupOf (1 : Fs)] ⟨0, 0⟩).1 = .error .panic ∧
      Circuit.CircFail.panic ≠ Circuit.CircFail.typedErr := by
  exact ⟨rfl, by decide⟩

/-- **C6 (amended).** The circuit path fails exactly when the parameters
provide fewer table groups than segments required **plus one** (one extra
group is fetched before the loop observes the exhausted stream), and the
failure is surfaced as an abort (the `expect` panic), never as a typed
`SynthesisError` result value; fuel exhaustion never occurs either. -/
theorem C6_amended {P : Type} [AddCommGroup P] [Module Fs P]
    (p : Personalization) (pb : List Bool) (hp : p.get_bits = some pb)
    (cbits : List CBool) (tables : List (List (Bool → Bool → Bool → P)))
    (st : Circuit.CircSt) (hwf : ∀ gp ∈ tables, gp.length = 63) :
    ((Circuit.pedersen_hash p cbits tables st).1 = .error .panic ↔
      tables.length < segsOf (6 + cbits.length) + 1) ∧
    (Circuit.pedersen_hash p cbits tables st).1 ≠ .error .typedErr ∧
    (Circuit.pedersen_hash p cbits tables st).1 ≠ .error .outOfFuel := by
  refine ⟨⟨?_, ?_⟩, (circuit_hash_no_bad_err p cbits tables st).2,
    (circuit_hash_no_bad_err p cbits tables st).1⟩
  · intro herr
    by_contra hlt
    push_neg at hlt
    obtain ⟨pt, cs', hok⟩ := circuit_hash_ok p pb hp cbits tables st hwf hlt
    rw [hok] at herr
    exact absurd herr (by simp)
  · intro hlt
    obtain ⟨cs', hpan⟩ := circuit_hash_panic p pb hp cbits tables st hwf hlt
    rw [hpan]


set_option maxRecDepth 10000 in
theorem C6_witness :
    (Circuit.pedersen_hash .NoteCommitment ([] : List CBool)
        [Circuit.tgroupOf (1 : Fs)] ⟨0, 0⟩).1 = .error .panic :=
  (C6_amended .NoteCommitment [true, true, true, true, true, true] rfl []
    [Circuit.tgroupOf (1 : Fs)] ⟨0, 0⟩ (by decide)).1.mpr (by decide)

/-- **C7.** For every (valid) personalization, hashing the empty message
yields a well-defined point derived solely from the 6 personalization bits:
the native path emits exactly one segment (consuming one generator) and
returns a point, and the circuit path returns a successful result equal to it
(its final unwrap never fails), given the per-segment tables (one extra group
being fetched by the loop before it observes the exhausted stream). -/
theorem C7_empty_message {P : Type} [AddCommGroup P] [Module Fs P]
    (p : Personalization) (pb : List Bool) (hp : p.get_bits = some pb)
    (gens : List P) (st : Circuit.CircSt) (hgens : 2 ≤ gens.length) :
    ∃ pt, Native.pedersen_hash p [] gens = .ok (pt, 1) ∧
      (Circuit.pedersen_hash p [] (gens.map Circuit.tgroupOf) st).1 = .ok pt := by
  obtain ⟨pt, hn, hc⟩ := pedersen_hash_equiv p pb hp [] gens st
    (by rw [show segsOf (6 + ([] : List CBool).length) = 1 from rfl]; omega)
  refine ⟨pt, ?_, hc⟩
  rw [show segsOf (6 + ([] : List CBool).length) = 1 from rfl] at hn
  exact hn

set_option maxRecDepth 10000 in
theorem C7_witness :
    ∃ pt, Native.pedersen_hash .NoteCommitment ([] : List Bool)
        ([1, 2] : List Fs) = .ok (pt, 1) ∧
      (Circuit.pedersen_hash .NoteCommitment ([] : List CBool)
        (([1, 2] : List Fs).map Circuit.tgroupOf) ⟨0, 0⟩).1 = .ok pt :=
  C7_empty_message .NoteCommitment [true, true, true, true, true, true] rfl
    ([1, 2] : List Fs) ⟨0, 0⟩ (by decide)

/-- **C8.** Both the native and the circuit pedersen hash terminate on every
finite input bit sequence: modelling the source's unbounded loops with fuel
(one unit per outer segment iteration, the entry points supplying one more
unit than the personalized bit length), no input, generator list or table
list can exhaust the fuel — every other iteration consumes at least one
window, and the loop ends at the iteration that consumes none. -/
theorem C8_termination {P : Type} [AddCommGroup P] [Module Fs P]
    (p : Personalization) (bits : List Bool) (gens : List P) (cbits : List CBool)
    (tables : List (List (Bool → Bool → Bool → P))) (st : Circuit.CircSt) :
    Native.pedersen_hash p bits gens ≠ .error .outOfFuel ∧
      (Circuit.pedersen_hash p cbits tables st).1 ≠ .error .outOfFuel :=
  ⟨native_hash_no_fuel_exhaustion p bits gens,
    (circuit_hash_no_bad_err p cbits tables st).1⟩

set_option maxRecDepth 10000 in
/-- **C9 counterexample.** Hashing the empty message with a single table
group: the second group fetch aborts the call, yet the 7 constraints recorded
by the completed first segment remain in the builder, whose state went from 0
recorded constraints to 7 — not left unchanged when the error propagates. -/
theorem C9_counterexample :
    Circuit.pedersen_hash .NoteCommitment ([] : List CBool)
        [Circuit.tgroupOf (1 : Fs)] ⟨0, 0⟩ = (.error .panic, ⟨7, 1⟩) ∧
      (7 : ℕ) ≠ 0 :=
  ⟨rfl, by decide⟩

/-- **C9 (amended).** The caller-owned builder is mutated in place and never
rolled back: whatever the outcome (success or propagated failure), the
recorded constraint count never decreases — on error, all constraints
recorded before the failure remain in the builder. -/
theorem C9_amended {P : Type} [AddCommGroup P] [Module Fs P]
    (p : Personalization) (cbits : List CBool)
    (tables : List (List (Bool → Bool → Bool → P))) (st : Circuit.CircSt) :
    st.cs ≤ (Circuit.pedersen_hash p cbits tables st).2.cs := by
  cases hp : p.get_bits with
  | none => simp [Circuit.pedersen_hash, hp]
  | some pb =>
      simp only [Circuit.pedersen_hash, hp]
      exact circuitGo_cs_mono _ tables (pb.map CBool.const ++ cbits) none st

/-- **C10.** The circuit path fetches the next table group before checking
whether bits remain: on every input whose personalized bit length is a
positive multiple of 189, with k segments to process, a successful run
fetches k + 1 groups; supplying exactly k groups (as many as segments
required) makes the "enough segments" abort reachable; the native path
checks for remaining bits before consuming a generator and consumes exactly
one generator per non-empty segment (k in total). -/
theorem C10_extra_table_fetch {P : Type} [AddCommGroup P] [Module Fs P]
    (p : Personalization) (pb : List Bool) (hp : p.get_bits = some pb)
    (cbits : List CBool) (k : ℕ) (hk : 1 ≤ k)
    (hlen : 6 + cbits.length = 189 * k) :
    (∀ (tables : List (List (Bool → Bool → Bool → P))) (st : Circuit.CircSt),
      (∀ gp ∈ tables, gp.length = 63) → k + 1 ≤ tables.length →
      ∃ pt cs', Circuit.pedersen_hash p cbits tables st =
        (.ok pt, ⟨cs', st.fetched + k + 1⟩)) ∧
    (∀ (tables : List (List (Bool → Bool → Bool → P))) (st : Circuit.CircSt),
      (∀ gp ∈ tables, gp.length = 63) → tables.length = k →
      ∃ cs', Circuit.pedersen_hash p cbits tables st =
        (.error .panic, ⟨cs', st.fetched + k⟩)) ∧
    (∀ gens : List P, gens.length = k →
      ∃ pt, Native.pedersen_hash p (cbits.map CBool.val) gens = .ok (pt, k)) := by
  have hseg : segsOf (6 + cbits.length) = k := by unfold segsOf; omega
  refine ⟨?_, ?_, ?_⟩
  · intro tables st hwf htab
    obtain ⟨pt, cs', h⟩ := circuit_hash_ok p pb hp cbits tables st hwf
      (by rw [hseg]; exact htab)
    exact ⟨pt, cs', by rw [h, hseg]⟩
  · intro tables st hwf htab
    obtain ⟨cs', h⟩ := circuit_hash_panic p pb hp cbits tables st hwf
      (by rw [hseg]; omega)
    exact ⟨cs', by rw [h, htab]⟩
  · intro gens hg
    have hml : (cbits.map CBool.val).length = cbits.length := by simp
    obtain ⟨pt, h⟩ := native_hash_ok p pb hp (cbits.map CBool.val) gens
      (by rw [hml, hseg]; omega)
    refine ⟨pt, ?_⟩
    rw [h, hml, hseg]

set_option maxRecDepth 10000 in
theorem C10_witness :
    ∃ cs', Circuit.pedersen_hash .NoteCommitment
        (List.replicate 183 (CBool.alloc false)) [Circuit.tgroupOf (1 : Fs)]
        ⟨0, 0⟩ = (.error .panic, ⟨cs', 0 + 1⟩) :=
  (C10_extra_table_fetch .NoteCommitment [true, true, true, true, true, true] rfl
    (List.replicate 183 (CBool.alloc false)) 1 (by decide) (by decide)).2.1
    [Circuit.tgroupOf (1 : Fs)] ⟨0, 0⟩ (by decide) (by decide)
